import Mathlib

/-!
Verification of the prnj_dev_branch_and_commit_message git hooks.

The development shallowly embeds the two core components of
src/prnj_dev_branch_and_commit_message/__main__.py:

* the branch classifier (get_branch, lines 56-99), including a faithful model of
  the Python re.match backtracking on the branch-name pattern: an optional
  "hotfix-", "hotfix/" or "proj/" disambiguator, then PRNJ-digits, then an
  optional dev segment "-DEV" with optional "-digits", then "-" and at least one
  word character;
* the commit message processor (CommitMessage, append_to_commit_msg,
  check_message, lines 133-243).

Strings are modelled as List Char; the regex character classes are modelled for
ASCII input. Matching is modelled in list-of-successes style: each pattern piece
enumerates its alternatives in exactly the preference order of the Python
backtracking engine (alternation left to right, greedy option taken first,
greedy plus longest first), and the overall match is the head of the resulting
ordered list of complete matches, which is the match Python returns.
-/

set_option autoImplicit false

namespace PrnjHook

deriving instance DecidableEq for Except

/-- Python regex class \d, for ASCII input: a decimal digit. -/
def isDigitC (c : Char) : Bool := c.isDigit

/-- Python regex class \w, for ASCII input: a letter, digit or underscore. -/
def isWordC (c : Char) : Bool := c.isAlphanum || c = '_'

/-- Match a literal character sequence at the head of the input, returning the
remainder on success. -/
def litRun : List Char → List Char → Option (List Char)
  | [], s => some s
  | _ :: _, [] => none
  | c :: cs, d :: ds => if c = d then litRun cs ds else none

/-- All ways to split off a nonempty run of p-characters at the head, longest
first: the preference order of a greedy plus quantifier under backtracking. -/
def plusSplits (p : Char → Bool) : List Char → List (List Char × List Char)
  | [] => []
  | c :: cs =>
    if p c then (plusSplits p cs).map (fun pr => (c :: pr.1, pr.2)) ++ [([c], cs)]
    else []

/-- Alternatives of the optional leading disambiguator group in preference
order: hotfix (with either separator), then proj, then the group skipped.
Components of each alternative: hotfix flag, proj flag, remaining input. -/
def prefixAlts (s : List Char) : List (Bool × Bool × List Char) :=
  (match litRun "hotfix".data s with
   | some ('-' :: r) => [(true, false, r)]
   | some ('/' :: r) => [(true, false, r)]
   | _ => []) ++
  (match litRun "proj/".data s with
   | some r => [(false, true, r)]
   | none => []) ++
  [(false, false, s)]

/-- Alternatives of the mandatory PRNJ-digits group: captured text and
remainder, longest digit run first. -/
def prnjAlts (s : List Char) : List (List Char × List Char) :=
  match litRun "PRNJ-".data s with
  | some r => (plusSplits isDigitC r).map (fun pr => ("PRNJ-".data ++ pr.1, pr.2))
  | none => []

/-- Alternatives of the optional dev segment (-DEV(-digits)?)? in preference
order: digits captured (longest first), then marker-only DEV, then the segment
skipped. Components: dev capture (if the group matched) and remainder. -/
def devAlts (s : List Char) : List (Option (List Char) × List Char) :=
  (match litRun "-DEV".data s with
   | some r =>
     (match litRun "-".data r with
      | some r2 => (plusSplits isDigitC r2).map (fun pr => (some ("DEV-".data ++ pr.1), pr.2))
      | none => []) ++ [(some "DEV".data, r)]
   | none => []) ++
  [(none, s)]

/-- Whether the trailing -\w+ of the branch pattern can match here; nothing
follows it in the pattern and re.match is unanchored at the right, so one word
character after the hyphen suffices. -/
def descOk : List Char → Bool
  | '-' :: c :: _ => isWordC c
  | _ => false

/-- The captures of a successful match of the branch-name pattern. -/
structure BMatch where
  hotfix : Bool
  proj : Bool
  prnj : List Char
  dev : Option (List Char)
deriving DecidableEq, Repr

/-- re.match of the branch pattern: the captures of the first complete match in
backtracking preference order, none when no alternative succeeds. -/
def branchMatch (s : List Char) : Option BMatch :=
  ((prefixAlts s).flatMap fun pr =>
    (prnjAlts pr.2.2).flatMap fun pn =>
      (devAlts pn.2).flatMap fun dv =>
        if descOk dv.2 then [⟨pr.1, pr.2.1, pn.1, dv.1⟩] else []).head?

/-- Does PRNJ- followed by at least one digit match at the head of s? -/
def startsPrnjNum (s : List Char) : Bool :=
  match litRun "PRNJ-".data s with
  | some (c :: _) => isDigitC c
  | _ => false

/-- re.search for PRNJ-digits anywhere in the string: the found_prnj probe of the
failure diagnostics. -/
def foundPrnj : List Char → Bool
  | [] => false
  | c :: cs => startsPrnjNum (c :: cs) || foundPrnj cs

/-- The anchored no_description probe: the whole name is the identifier prefix,
optionally a dev segment, and nothing after (the branch pattern with $ in place
of the trailing description). -/
def noDescription (s : List Char) : Bool :=
  let hits : List Unit :=
    (prefixAlts s).flatMap fun pr =>
      (prnjAlts pr.2.2).flatMap fun pn =>
        (devAlts pn.2).flatMap fun dv =>
          if dv.2 = [] then [()] else []
  !hits.isEmpty

/-- The work/throwaway prefixes tested with str.startswith. -/
def wipPrefixes : List (List Char) :=
  ["wip-".data, "wip/".data, "hack-".data, "hack/".data, "poc-".data, "poc/".data]

/-- branch_name.startswith(("wip-", "wip/", "hack-", "hack/", "poc-", "poc/")). -/
def isWipHack (s : List Char) : Bool :=
  wipPrefixes.any fun p => (litRun p s).isSome

/-- The Branch named tuple. -/
structure Branch where
  branch_name : List Char
  is_wip_hack : Bool := false
  is_hotfix : Bool := false
  is_proj : Bool := false
  prnj : Option (List Char) := none
  dev : Option (List Char) := none
deriving DecidableEq, Repr

/-- Python truthiness of an optional string: None and the empty string are falsy. -/
def optTruthy : Option (List Char) → Bool
  | some l => !l.isEmpty
  | none => false

def Branch.is_valid (b : Branch) : Bool :=
  b.is_wip_hack || (optTruthy b.prnj && optTruthy b.dev)

def Branch.is_dev_without_number (b : Branch) : Bool :=
  decide (b.dev = some "DEV".data)

def projectParentMsg : String :=
  "Commits to project branches are not allowed. Commit on a DEV branch instead."

def wrongFormatText : String :=
  "branch is wrongly formatted: expected optional 'hotfix/' or 'proj/' prefix, followed by PRNJ-<n>, optional '-DEV[-n]', then a hyphenated description"

def malformedMsg (error_msg : List String) : String :=
  "Branch name does not follow the standard: " ++ String.intercalate ", " error_msg

/-- get_branch as a function of the branch name (reading the name from git is the
caller's concern). -/
def getBranch (branch_name : List Char) : Except String Branch :=
  if isWipHack branch_name then
    .ok { branch_name := branch_name, is_wip_hack := true }
  else
    match branchMatch branch_name with
    | none =>
      let found_prnj := foundPrnj branch_name
      let no_description := noDescription branch_name
      let error_msg : List String :=
        (if found_prnj then [] else ["could not find PRNJ-number"]) ++
        (if no_description then ["could not find a branch description"]
         else if found_prnj then [wrongFormatText] else [])
      .error (malformedMsg error_msg)
    | some m =>
      if m.proj && !optTruthy m.dev then .error projectParentMsg
      else .ok { branch_name := branch_name, is_hotfix := m.hotfix, is_proj := m.proj,
                 prnj := some m.prnj, dev := m.dev }

/-- str.partition at the first newline: text before it, text after it (the
separator, when present, is dropped; when absent the second component is empty). -/
def splitFirstNL : List Char → List Char × List Char
  | [] => ([], [])
  | c :: cs =>
    if c = '\n' then ([], cs)
    else
      let pr := splitFirstNL cs
      (c :: pr.1, pr.2)

/-- The scissors cut-marker literal searched for at line starts. -/
def scissorsLit : List Char :=
  "# ------------------------ >8 ------------------------".data

def scissorsAt (s : List Char) : Bool := (litRun scissorsLit s).isSome

/-- Scan for the first line start where the cut marker matches; atStart records
whether the current position is a start of line. Returns the text before the
marker and the text from the marker line on. -/
def splitScissors : Bool → List Char → List Char × List Char
  | _, [] => ([], [])
  | atStart, c :: cs =>
    if atStart && scissorsAt (c :: cs) then ([], c :: cs)
    else
      let pr := splitScissors (c == '\n') cs
      (c :: pr.1, pr.2)

/-- re.search in MULTILINE mode for a line starting with the literal l. -/
def lineStartsWithAux (l : List Char) : Bool → List Char → Bool
  | atStart, [] => atStart && (litRun l []).isSome
  | atStart, c :: cs =>
    (atStart && (litRun l (c :: cs)).isSome) || lineStartsWithAux l (c == '\n') cs

def msgSubject (m : List Char) : List Char := (splitFirstNL m).1
def msgBelow (m : List Char) : List Char := (splitFirstNL m).2
def msgBody (m : List Char) : List Char := (splitScissors true (msgBelow m)).1
def msgRest (m : List Char) : List Char := (splitScissors true (msgBelow m)).2

/-- bool(branch.id and re.search(caret + id, body, MULTILINE)). -/
def foundInBody (o : Option (List Char)) (body : List Char) : Bool :=
  match o with
  | some l => !l.isEmpty && lineStartsWithAux l true body
  | none => false

structure CommitMessage where
  subject : List Char
  body : List Char
  rest : List Char
  prnj_found : Bool
  dev_found : Bool
deriving DecidableEq, Repr

/-- CommitMessage construction: split the raw message and compute the two
presence flags against the body. -/
def mkCommitMessage (branch : Branch) (message : List Char) : CommitMessage :=
  { subject := msgSubject message
    body := msgBody message
    rest := msgRest message
    prnj_found := foundInBody branch.prnj (msgBody message)
    dev_found := foundInBody branch.dev (msgBody message) }

/-- The newline join of the missing-identifier list. -/
def intercalateNL : List (List Char) → List Char
  | [] => []
  | [x] => x
  | x :: xs => x ++ '\n' :: intercalateNL xs

/-- The ordered list of identifiers the append step would write: the dev id when
the branch pins a dev number and the body lacks it, then the project id when the
body lacks it. -/
def missingIds (branch : Branch) (cm : CommitMessage) : List (List Char) :=
  (match branch.dev with
   | some d => if d ≠ [] ∧ d ≠ "DEV".data ∧ cm.dev_found = false then [d] else []
   | none => []) ++
  (match branch.prnj with
   | some p => if p ≠ [] ∧ cm.prnj_found = false then [p] else []
   | none => [])

/-- The text produced by the four print calls of the rewrite (each print appends
one newline). -/
def rewriteText (cm : CommitMessage) (ids : List Char) : List Char :=
  cm.subject ++ '\n' :: (cm.body ++ '\n' :: '\n' :: (ids ++ '\n' :: (cm.rest ++ ['\n'])))

/-- append_to_commit_msg as a pure function of the classification and the current
file content: some newContent when the file is rewritten, none when the function
returns without writing. -/
def appendToCommitMsg (branch : Branch) (message : List Char) : Option (List Char) :=
  let cm := mkCommitMessage branch message
  if branch.is_wip_hack then none
  else if (cm.prnj_found && !branch.is_proj) || cm.dev_found then none
  else
    let parts := missingIds branch cm
    if parts = [] then none
    else some (rewriteText cm (intercalateNL parts))

/-- str(x) of an optional identifier in the f-string diagnostics. -/
def optStr : Option (List Char) → String
  | some l => String.mk l
  | none => "None"

def prnjMissingMsg (branch : Branch) : String :=
  "Did not find " ++ optStr branch.prnj ++ " in commit message body"

def devMissingMsg (branch : Branch) : String :=
  "Did not find " ++ optStr branch.dev ++ " in commit message body"

/-- The check-branch entry point on a non-merge commit. -/
def checkBranchCmd (branch_name : List Char) : Except String Unit :=
  (getBranch branch_name).map fun _ => ()

/-- The append entry as invoked on the message file: a classification failure
propagates before any write; otherwise the optional rewritten content. -/
def appendCommand (branch_name message : List Char) : Except String (Option (List Char)) :=
  (getBranch branch_name).map fun branch => appendToCommitMsg branch message

/-- The check-message entry point on a non-merge commit: optional auto-append,
then re-read and validate. Returns the final content of the message file, or the
failure message. -/
def checkMessageCmd (branch_name message : List Char) (autoAppend : Bool) :
    Except String (List Char) := do
  let branch ← getBranch branch_name
  let m1 := if autoAppend then (appendToCommitMsg branch message).getD message else message
  let cm := mkCommitMessage branch m1
  if branch.is_wip_hack then return m1
  if !cm.prnj_found then throw (prnjMissingMsg branch)
  if branch.is_proj && !(branch.is_dev_without_number || cm.dev_found) then
    throw (devMissingMsg branch)
  return m1


/-- The at-start-of-line flag after scanning a chunk of text. -/
def afterNL (aS : Bool) : List Char → Bool
  | [] => aS
  | c :: cs => afterNL (c == '\n') cs

/-- The rewrite layout in the specification's words: subject, newline, body
unmodified, a blank line, the joined missing-identifier block, newline, trailer
(and nothing else). Stated from the spec for comparison with the writer the
code implements. -/
def specRewriteText (cm : CommitMessage) (ids : List Char) : List Char :=
  cm.subject ++ '\n' :: (cm.body ++ '\n' :: '\n' :: (ids ++ '\n' :: cm.rest))

/-- Whether the trailing hyphen-description of the branch pattern matches and
consumes the whole remainder. -/
def fullDesc : List Char → Bool
  | '-' :: c :: cs => isWordC c && cs.all isWordC
  | _ => false

/-- A whole-string match of the branch grammar: the same alternatives as the
matcher, with the description required to consume the entire input. -/
def fullGrammarMatch (s : List Char) : Bool :=
  let hits : List Unit :=
    (prefixAlts s).flatMap fun pr =>
      (prnjAlts pr.2.2).flatMap fun pn =>
        (devAlts pn.2).flatMap fun dv =>
          if fullDesc dv.2 then [()] else []
  !hits.isEmpty

/-! ### Lemmas about the matching primitives -/

theorem litRun_append_self (l r : List Char) : litRun l (l ++ r) = some r := by
  induction l with
  | nil => rfl
  | cons c cs ih => simp [litRun, ih]

theorem litRun_eq_append : ∀ {l s r : List Char}, litRun l s = some r → s = l ++ r
  | [], _, _, h => by simpa [litRun] using h
  | _ :: _, [], _, h => by simp [litRun] at h
  | c :: cs, d :: ds, r, h => by
    simp only [litRun] at h
    split at h
    · next hc => subst hc; simpa using litRun_eq_append h
    · exact absurd h (by simp)

theorem litRun_extend {l s r : List Char} (t : List Char) (h : litRun l s = some r) :
    litRun l (s ++ t) = some (r ++ t) := by
  rw [litRun_eq_append h, List.append_assoc]
  exact litRun_append_self l (r ++ t)

theorem litRun_append_char_none : ∀ {l b : List Char} {c : Char} (x : List Char),
    c ∉ l → litRun l b = none → litRun l (b ++ c :: x) = none
  | [], b, c, x, _, h => by simp [litRun] at h
  | a :: l', [], c, x, hc, _ => by
    have hac : ¬a = c := fun h => hc (h ▸ List.mem_cons_self a l')
    simp [litRun, hac]
  | a :: l', d :: ds, c, x, hc, h => by
    simp only [litRun] at h
    simp only [List.cons_append, litRun]
    split
    · next had =>
      rw [if_pos had] at h
      exact litRun_append_char_none x (fun hm => hc (List.mem_cons_of_mem a hm)) h
    · rfl

theorem plusSplits_cons (p : Char → Bool) (c : Char) (cs : List Char) :
    plusSplits p (c :: cs) =
      if p c then (plusSplits p cs).map (fun pr => (c :: pr.1, pr.2)) ++ [([c], cs)]
      else [] := rfl

theorem plusSplits_mem_shape {p : Char → Bool} :
    ∀ {s : List Char} {pr : List Char × List Char}, pr ∈ plusSplits p s →
      pr.1 ≠ [] ∧ (∀ c ∈ pr.1, p c = true) ∧ pr.1 ++ pr.2 = s
  | [], _, h => by simp [plusSplits] at h
  | c :: cs, pr, h => by
    simp only [plusSplits] at h
    split at h
    · next hc =>
      rcases List.mem_append.1 h with hm | hm
      · obtain ⟨q, hq, rfl⟩ := List.mem_map.1 hm
        obtain ⟨h1, h2, h3⟩ := plusSplits_mem_shape hq
        refine ⟨by simp, ?_, by simpa using h3⟩
        intro x hx
        rcases List.mem_cons.1 hx with rfl | hx
        · exact hc
        · exact h2 x hx
      · simp only [List.mem_singleton] at hm
        subst hm
        exact ⟨by simp, by simpa using hc, rfl⟩
    · simp at h

theorem mem_plusSplits {p : Char → Bool} :
    ∀ {n : List Char} (rest : List Char), n ≠ [] → (∀ c ∈ n, p c = true) →
      (n, rest) ∈ plusSplits p (n ++ rest)
  | [], _, h, _ => absurd rfl h
  | [c], rest, _, hall => by
    simp [plusSplits, hall c (by simp)]
  | c :: c' :: n', rest, _, hall => by
    have ih := mem_plusSplits (p := p) (n := c' :: n') rest (by simp)
      (fun x hx => hall x (List.mem_cons_of_mem c hx))
    show (c :: c' :: n', rest) ∈ plusSplits p (c :: (c' :: n' ++ rest))
    rw [plusSplits_cons, if_pos (hall c (by simp))]
    exact List.mem_append_left _ (List.mem_map.2 ⟨(c' :: n', rest), ih, rfl⟩)

theorem plusSplits_eq_cons {p : Char → Bool} :
    ∀ {n : List Char} (rest : List Char), n ≠ [] → (∀ c ∈ n, p c = true) →
      (∀ c, rest.head? = some c → p c = false) →
      ∃ tl, plusSplits p (n ++ rest) = (n, rest) :: tl
  | [], _, h, _, _ => absurd rfl h
  | [c], rest, _, hall, hrest => by
    have hps : plusSplits p rest = [] := by
      cases rest with
      | nil => rfl
      | cons d ds => rw [plusSplits_cons, if_neg (by simp [hrest d rfl])]
    refine ⟨[], ?_⟩
    show plusSplits p (c :: rest) = _
    rw [plusSplits_cons, if_pos (hall c (by simp)), hps]
    rfl
  | c :: c' :: n', rest, _, hall, hrest => by
    obtain ⟨tl, htl⟩ := plusSplits_eq_cons (p := p) (n := c' :: n') rest (by simp)
      (fun x hx => hall x (List.mem_cons_of_mem c hx)) hrest
    refine ⟨(tl.map fun pr => (c :: pr.1, pr.2)) ++ [([c], c' :: n' ++ rest)], ?_⟩
    show plusSplits p (c :: (c' :: n' ++ rest)) = _
    rw [plusSplits_cons, if_pos (hall c (by simp)), htl]
    simp

/-! ### Small list utilities -/

theorem flatMap_ne_nil_of_mem {α β : Type} {l : List α} {f : α → List β} {a : α}
    (ha : a ∈ l) (hf : f a ≠ []) : l.flatMap f ≠ [] := by
  obtain ⟨b, hb⟩ := List.exists_mem_of_ne_nil _ hf
  intro h
  have hmem : b ∈ l.flatMap f := List.mem_flatMap.2 ⟨a, ha, hb⟩
  rw [h] at hmem
  exact absurd hmem (List.not_mem_nil b)

theorem head?_isSome_of_ne_nil {α : Type} {l : List α} (h : l ≠ []) : l.head?.isSome = true := by
  cases l with
  | nil => exact absurd rfl h
  | cons a l' => rfl

theorem mem_of_head?_eq {α : Type} {l : List α} {a : α} (h : l.head? = some a) : a ∈ l := by
  cases l with
  | nil => simp at h
  | cons b l' => simp_all


/-! ### Evaluation of the branch matcher on structured names -/

theorem prefixAlts_proj (X : List Char) :
    prefixAlts ('p' :: 'r' :: 'o' :: 'j' :: '/' :: X) =
      [(false, true, X), (false, false, 'p' :: 'r' :: 'o' :: 'j' :: '/' :: X)] := rfl

theorem prefixAlts_hotfix_dash (X : List Char) :
    prefixAlts ('h' :: 'o' :: 't' :: 'f' :: 'i' :: 'x' :: '-' :: X) =
      [(true, false, X), (false, false, 'h' :: 'o' :: 't' :: 'f' :: 'i' :: 'x' :: '-' :: X)] := rfl

theorem prefixAlts_hotfix_slash (X : List Char) :
    prefixAlts ('h' :: 'o' :: 't' :: 'f' :: 'i' :: 'x' :: '/' :: X) =
      [(true, false, X), (false, false, 'h' :: 'o' :: 't' :: 'f' :: 'i' :: 'x' :: '/' :: X)] := rfl

theorem prefixAlts_prnj (X : List Char) :
    prefixAlts ('P' :: 'R' :: 'N' :: 'J' :: '-' :: X) =
      [(false, false, 'P' :: 'R' :: 'N' :: 'J' :: '-' :: X)] := rfl

theorem prnjAlts_eval (Y : List Char) :
    prnjAlts ('P' :: 'R' :: 'N' :: 'J' :: '-' :: Y) =
      (plusSplits isDigitC Y).map (fun pr => ("PRNJ-".data ++ pr.1, pr.2)) := rfl

theorem devAlts_dash_digits (W : List Char) :
    devAlts ('-' :: 'D' :: 'E' :: 'V' :: '-' :: W) =
      ((plusSplits isDigitC W).map (fun pr => (some ("DEV-".data ++ pr.1), pr.2)) ++
        [(some "DEV".data, '-' :: W)]) ++
      [(none, '-' :: 'D' :: 'E' :: 'V' :: '-' :: W)] := rfl

theorem descOk_dash (c : Char) (t : List Char) : descOk ('-' :: c :: t) = isWordC c := rfl

/-- Evaluation of the matcher on a project dev branch with a pinned dev number:
the first alternative explored succeeds, capturing the proj prefix, the project
id and the numbered dev id. -/
theorem branchMatch_proj_dev (n m d' : List Char) (c : Char)
    (hn : n ≠ []) (hnd : ∀ x ∈ n, isDigitC x = true)
    (hm : m ≠ []) (hmd : ∀ x ∈ m, isDigitC x = true) (hc : isWordC c = true) :
    branchMatch ("proj/PRNJ-".data ++ n ++ "-DEV-".data ++ m ++ '-' :: c :: d') =
      some ⟨false, true, "PRNJ-".data ++ n, some ("DEV-".data ++ m)⟩ := by
  obtain ⟨tl1, htl1⟩ := plusSplits_eq_cons (p := isDigitC) (n := n)
    ('-' :: 'D' :: 'E' :: 'V' :: '-' :: (m ++ '-' :: c :: d')) hn hnd
    (fun x hx => by
      injection hx with h
      subst h
      decide)
  obtain ⟨tl2, htl2⟩ := plusSplits_eq_cons (p := isDigitC) (n := m)
    ('-' :: c :: d') hm hmd
    (fun x hx => by
      injection hx with h
      subst h
      decide)
  simp only [branchMatch, List.cons_append, List.nil_append, List.append_assoc,
    prefixAlts_proj, List.flatMap_cons, List.flatMap_nil, List.flatMap_append,
    prnjAlts_eval, htl1, List.map_cons, devAlts_dash_digits, htl2,
    descOk_dash, hc, if_true, eq_self_iff_true, List.head?_cons, List.head?_append]

theorem descOk_ne_dash {x : Char} (xs : List Char) (h : ¬x = '-') : descOk (x :: xs) = false := by
  unfold descOk
  split
  · next heq => cases heq; exact absurd rfl h
  · rfl

theorem descOk_nil : descOk [] = false := rfl

theorem isWordC_ne_dash {x : Char} (h : isWordC x = true) : ¬x = '-' := by
  intro he
  subst he
  simp [isWordC] at h

/-- On a remainder consisting of a hyphen and word characters only, every dev
alternative other than the skipped segment fails the description check. -/
theorem devAlts_dash_word (d : List Char) (hdw : ∀ x ∈ d, isWordC x = true) :
    ∃ pre, devAlts ('-' :: d) = pre ++ [(none, '-' :: d)] ∧ ∀ dv ∈ pre, descOk dv.2 = false := by
  have hlit : litRun "-DEV".data ('-' :: d) = litRun "DEV".data d := rfl
  cases hDEV : litRun "DEV".data d with
  | none =>
    refine ⟨[], ?_, by simp⟩
    rw [devAlts, hlit, hDEV]
  | some d3 =>
    have hd3 : d = "DEV".data ++ d3 := litRun_eq_append hDEV
    have hd3w : ∀ x ∈ d3, isWordC x = true := fun x hx =>
      hdw x (by rw [hd3]; exact List.mem_append_right _ hx)
    have hinner : litRun "-".data d3 = none := by
      cases d3 with
      | nil => rfl
      | cons x xs =>
        have hx := isWordC_ne_dash (hd3w x (by simp))
        show litRun ['-'] (x :: xs) = none
        simp only [litRun]
        exact if_neg (fun h : '-' = x => hx h.symm)
    have hdesc3 : descOk d3 = false := by
      cases d3 with
      | nil => rfl
      | cons x xs => exact descOk_ne_dash xs (isWordC_ne_dash (hd3w x (by simp)))
    refine ⟨[(some "DEV".data, d3)], ?_, ?_⟩
    · simp only [devAlts, hlit, hDEV, hinner, List.nil_append]
    · intro dv hdv
      simp only [List.mem_singleton] at hdv
      subst hdv
      exact hdesc3

/-- The dev-segment alternatives on a hyphen-and-word remainder contribute only
the skipped-segment alternative to any flat map that is empty on failed
description checks. -/
theorem devAlts_flatMap_word {β : Type} (d : List Char)
    (hdw : ∀ x ∈ d, isWordC x = true)
    (F : Option (List Char) × List Char → List β)
    (hF : ∀ dv, descOk dv.2 = false → F dv = []) :
    (devAlts ('-' :: d)).flatMap F = F (none, '-' :: d) := by
  obtain ⟨pre, hpre, hfail⟩ := devAlts_dash_word d hdw
  rw [hpre, List.flatMap_append]
  have hnil : pre.flatMap F = [] :=
    List.flatMap_eq_nil_iff.mpr (fun dv hdv => hF dv (hfail dv hdv))
  rw [hnil]
  simp

/-- Evaluation of the matcher on a project branch with no dev segment: the match
succeeds with no dev capture. -/
theorem branchMatch_proj_nodev (n d : List Char)
    (hn : n ≠ []) (hnd : ∀ x ∈ n, isDigitC x = true)
    (hd : d ≠ []) (hdw : ∀ x ∈ d, isWordC x = true) :
    branchMatch ("proj/PRNJ-".data ++ n ++ '-' :: d) =
      some ⟨false, true, "PRNJ-".data ++ n, none⟩ := by
  obtain ⟨c, d'', rfl⟩ : ∃ c d'', d = c :: d'' := by
    cases d with
    | nil => exact absurd rfl hd
    | cons c d'' => exact ⟨c, d'', rfl⟩
  obtain ⟨tl1, htl1⟩ := plusSplits_eq_cons (p := isDigitC) (n := n)
    ('-' :: c :: d'') hn hnd
    (fun x hx => by
      injection hx with h
      subst h
      decide)
  have hF : ∀ dv : Option (List Char) × List Char, descOk dv.2 = false →
      (if descOk dv.2 = true then
        [(⟨false, true, "PRNJ-".data ++ n, dv.1⟩ : BMatch)] else []) = [] := by
    intro dv h
    rw [h]
    simp
  simp only [branchMatch, List.cons_append, List.nil_append, List.append_assoc,
    prefixAlts_proj, List.flatMap_cons, List.flatMap_nil, List.flatMap_append,
    prnjAlts_eval, htl1, List.map_cons]
  rw [devAlts_flatMap_word (c :: d'') hdw _ ?hf]
  case hf =>
    intro dv h
    rw [h]
    simp
  simp [descOk_dash, hdw c (by simp)]

/-! ### Shape of successful classifications -/

theorem prefixAlts_mem_shape {s : List Char} {pr : Bool × Bool × List Char}
    (h : pr ∈ prefixAlts s) : ¬(pr.1 = true ∧ pr.2.1 = true) := by
  simp only [prefixAlts, List.mem_append] at h
  rcases h with (h | h) | h
  · split at h <;> simp_all
  · split at h <;> simp_all
  · simp only [List.mem_singleton] at h
    subst h
    simp

theorem prnjAlts_mem_shape {s : List Char} {pn : List Char × List Char}
    (h : pn ∈ prnjAlts s) :
    ∃ nd, pn.1 = "PRNJ-".data ++ nd ∧ nd ≠ [] ∧ ∀ x ∈ nd, isDigitC x = true := by
  simp only [prnjAlts] at h
  split at h
  · obtain ⟨q, hq, rfl⟩ := List.mem_map.1 h
    obtain ⟨h1, h2, _⟩ := plusSplits_mem_shape hq
    exact ⟨q.1, rfl, h1, h2⟩
  · simp at h

theorem devAlts_mem_shape {s : List Char} {dv : Option (List Char) × List Char}
    (h : dv ∈ devAlts s) :
    dv.1 = none ∨ dv.1 = some "DEV".data ∨
      ∃ md, dv.1 = some ("DEV-".data ++ md) ∧ md ≠ [] ∧ ∀ x ∈ md, isDigitC x = true := by
  simp only [devAlts, List.mem_append] at h
  rcases h with h | h
  · split at h
    · rcases List.mem_append.1 h with h | h
      · split at h
        · obtain ⟨q, hq, rfl⟩ := List.mem_map.1 h
          obtain ⟨h1, h2, _⟩ := plusSplits_mem_shape hq
          exact Or.inr (Or.inr ⟨q.1, rfl, h1, h2⟩)
        · simp at h
      · simp only [List.mem_singleton] at h
        subst h
        exact Or.inr (Or.inl rfl)
    · simp at h
  · simp only [List.mem_singleton] at h
    subst h
    exact Or.inl rfl

theorem branchMatch_shape {s : List Char} {bm : BMatch} (h : branchMatch s = some bm) :
    ¬(bm.hotfix = true ∧ bm.proj = true) ∧
    (∃ nd, bm.prnj = "PRNJ-".data ++ nd ∧ nd ≠ [] ∧ ∀ x ∈ nd, isDigitC x = true) ∧
    (bm.dev = none ∨ bm.dev = some "DEV".data ∨
      ∃ md, bm.dev = some ("DEV-".data ++ md) ∧ md ≠ [] ∧ ∀ x ∈ md, isDigitC x = true) := by
  have hmem := mem_of_head?_eq h
  obtain ⟨pr, hpr, hmem⟩ := List.mem_flatMap.1 hmem
  obtain ⟨pn, hpn, hmem⟩ := List.mem_flatMap.1 hmem
  obtain ⟨dv, hdv, hmem⟩ := List.mem_flatMap.1 hmem
  have hbm : bm = ⟨pr.1, pr.2.1, pn.1, dv.1⟩ := by
    split at hmem
    · simpa using hmem
    · simp at hmem
  subst hbm
  exact ⟨prefixAlts_mem_shape hpr, prnjAlts_mem_shape hpn, devAlts_mem_shape hdv⟩

/-- Any branch successfully classified is either the wip/hack record or carries a
project id of the strict PRNJ-digits form, a dev id that is absent, the bare
marker, or of the DEV-digits form, and (for proj branches) a nonempty dev id. -/
theorem getBranch_ok_shape {s : List Char} {br : Branch} (h : getBranch s = .ok br) :
    br.is_wip_hack = true ∨
    (br.is_wip_hack = false ∧
     ¬(br.is_hotfix = true ∧ br.is_proj = true) ∧
     (∃ nd, br.prnj = some ("PRNJ-".data ++ nd) ∧ nd ≠ [] ∧ ∀ x ∈ nd, isDigitC x = true) ∧
     (br.dev = none ∨ br.dev = some "DEV".data ∨
       ∃ md, br.dev = some ("DEV-".data ++ md) ∧ md ≠ [] ∧ ∀ x ∈ md, isDigitC x = true) ∧
     (br.is_proj = true → optTruthy br.dev = true)) := by
  rw [getBranch] at h
  split at h
  · left
    cases h
    rfl
  · right
    split at h
    · exact absurd h (by simp)
    · next m hm =>
      split at h
      · exact absurd h (by simp)
      · next hguard =>
        cases h
        obtain ⟨hhp, ⟨nd, hnd⟩, hdev⟩ := branchMatch_shape hm
        refine ⟨rfl, by simpa using hhp, ⟨nd, by simpa using hnd⟩, by simpa using hdev, ?_⟩
        intro hproj
        simp only [Bool.and_eq_true, Bool.not_eq_true'] at hguard
        by_cases ht : optTruthy m.dev = true
        · exact ht
        · exact absurd ⟨hproj, by simpa using ht⟩ hguard

/-! ### Classification of whole branch-name families -/

theorem isWipHack_wip {p : List Char} (hp : p ∈ wipPrefixes) (rest : List Char) :
    isWipHack (p ++ rest) = true := by
  rw [isWipHack, List.any_eq_true]
  exact ⟨p, hp, by rw [litRun_append_self]; rfl⟩

theorem getBranch_wip {p : List Char} (rest : List Char) (hp : p ∈ wipPrefixes) :
    getBranch (p ++ rest) = .ok { branch_name := p ++ rest, is_wip_hack := true } := by
  rw [getBranch, if_pos (isWipHack_wip hp rest)]

theorem isWipHack_proj_head (X : List Char) : isWipHack ('p' :: 'r' :: X) = false := rfl

theorem isWipHack_prnj_head (X : List Char) : isWipHack ('P' :: X) = false := rfl

theorem isWipHack_hotfix_head (X : List Char) : isWipHack ('h' :: 'o' :: X) = false := rfl

/-- Classification of proj/PRNJ-n-DEV-m-description: a valid project dev branch
carrying both identifiers. -/
theorem getBranch_proj_dev (n m d' : List Char) (c : Char)
    (hn : n ≠ []) (hnd : ∀ x ∈ n, isDigitC x = true)
    (hm : m ≠ []) (hmd : ∀ x ∈ m, isDigitC x = true) (hc : isWordC c = true) :
    getBranch ("proj/PRNJ-".data ++ n ++ "-DEV-".data ++ m ++ '-' :: c :: d') =
      .ok { branch_name := "proj/PRNJ-".data ++ n ++ "-DEV-".data ++ m ++ '-' :: c :: d',
            is_wip_hack := false, is_hotfix := false, is_proj := true,
            prnj := some ("PRNJ-".data ++ n), dev := some ("DEV-".data ++ m) } := by
  have hwip : isWipHack ("proj/PRNJ-".data ++ n ++ "-DEV-".data ++ m ++ '-' :: c :: d') = false := rfl
  have htr : optTruthy (some ('D' :: 'E' :: 'V' :: '-' :: m)) = true := rfl
  rw [getBranch, if_neg (by rw [hwip]; exact Bool.false_ne_true),
    branchMatch_proj_dev n m d' c hn hnd hm hmd hc]
  simp [htr]

/-- Classification of proj/PRNJ-n-description (no dev segment): the project
parent failure. -/
theorem getBranch_proj_nodev (n d : List Char)
    (hn : n ≠ []) (hnd : ∀ x ∈ n, isDigitC x = true)
    (hd : d ≠ []) (hdw : ∀ x ∈ d, isWordC x = true) :
    getBranch ("proj/PRNJ-".data ++ n ++ '-' :: d) = .error projectParentMsg := by
  have hwip : isWipHack ("proj/PRNJ-".data ++ n ++ '-' :: d) = false := rfl
  rw [getBranch, if_neg (by rw [hwip]; exact Bool.false_ne_true),
    branchMatch_proj_nodev n d hn hnd hd hdw]
  simp [optTruthy]

/-! ### Lemmas about the message split -/

theorem splitFirstNL_no_nl : ∀ m : List Char, '\n' ∉ (splitFirstNL m).1
  | [] => by simp [splitFirstNL]
  | c :: cs => by
    simp only [splitFirstNL]
    split
    · simp
    · next hne =>
      intro hmem
      rcases List.mem_cons.1 hmem with heq | hmem
      · exact hne heq.symm
      · exact splitFirstNL_no_nl cs hmem

theorem splitFirstNL_append {a : List Char} (b : List Char) (ha : '\n' ∉ a) :
    splitFirstNL (a ++ '\n' :: b) = (a, b) := by
  induction a with
  | nil => simp [splitFirstNL]
  | cons c cs ih =>
    have hc : ¬(c = '\n') := fun h => ha (h ▸ List.mem_cons_self c cs)
    rw [List.cons_append, splitFirstNL, if_neg hc,
      ih (fun hm => ha (List.mem_cons_of_mem _ hm))]

theorem litRun_none_of_append {l a b : List Char} (h : litRun l (a ++ b) = none) :
    litRun l a = none := by
  cases ha : litRun l a with
  | none => rfl
  | some r => rw [litRun_extend b ha] at h; exact absurd h (by simp)

theorem scissorsAt_cons_ne {c : Char} (y : List Char) (hc : ¬c = '#') :
    scissorsAt (c :: y) = false := by
  have hlit : scissorsLit = '#' :: " ------------------------ >8 ------------------------".data := rfl
  have : litRun scissorsLit (c :: y) = none := by
    rw [hlit, litRun]
    exact if_neg (fun h : '#' = c => hc h.symm)
  simp [scissorsAt, this]

theorem scissorsAt_extend {s : List Char} (t : List Char) (h : scissorsAt s = true) :
    scissorsAt (s ++ t) = true := by
  rw [scissorsAt, Option.isSome_iff_exists] at h
  obtain ⟨r, hr⟩ := h
  rw [scissorsAt, litRun_extend t hr]
  rfl

theorem splitScissors_join : ∀ (aS : Bool) (s : List Char),
    (splitScissors aS s).1 ++ (splitScissors aS s).2 = s
  | _, [] => rfl
  | aS, c :: cs => by
    simp only [splitScissors]
    split
    · rfl
    · simpa using splitScissors_join (c == '\n') cs

theorem splitScissors_body_clean : ∀ (aS : Bool) (s : List Char),
    splitScissors aS (splitScissors aS s).1 = ((splitScissors aS s).1, [])
  | _, [] => rfl
  | aS, c :: cs => by
    rw [splitScissors]
    by_cases hguard : (aS && scissorsAt (c :: cs)) = true
    · rw [if_pos hguard]
      rfl
    · rw [if_neg hguard]
      simp only []
      have hjoin := splitScissors_join (c == '\n') cs
      have hsa : (aS && scissorsAt (c :: (splitScissors (c == '\n') cs).1)) = false := by
        cases haS : aS with
        | false => rfl
        | true =>
          have hfull : scissorsAt (c :: cs) = false := by
            cases hx : scissorsAt (c :: cs) with
            | false => rfl
            | true => exact absurd (by rw [haS, hx]; rfl) hguard
          have hnone : litRun scissorsLit (c :: (splitScissors (c == '\n') cs).1) = none := by
            apply litRun_none_of_append (b := (splitScissors (c == '\n') cs).2)
            have harr : (c :: (splitScissors (c == '\n') cs).1) ++ (splitScissors (c == '\n') cs).2
                = c :: cs := by rw [List.cons_append, hjoin]
            rw [harr]
            simpa [scissorsAt] using hfull
          simp [scissorsAt, hnone]
      rw [splitScissors, if_neg (by rw [hsa]; exact Bool.false_ne_true),
        splitScissors_body_clean (c == '\n') cs]

theorem splitScissors_rest_scis : ∀ (aS : Bool) (s : List Char),
    (splitScissors aS s).2 ≠ [] → scissorsAt (splitScissors aS s).2 = true
  | _, [], h => absurd rfl h
  | aS, c :: cs, h => by
    rw [splitScissors] at h ⊢
    by_cases hguard : (aS && scissorsAt (c :: cs)) = true
    · rw [if_pos hguard]
      simp only [Bool.and_eq_true] at hguard
      exact hguard.2
    · rw [if_neg hguard] at h ⊢
      exact splitScissors_rest_scis (c == '\n') cs h

theorem splitScissors_at_scis {s : List Char} (h : scissorsAt s = true) :
    splitScissors true s = ([], s) := by
  cases s with
  | nil => simp [scissorsAt, scissorsLit, litRun] at h
  | cons c cs =>
    rw [splitScissors]
    simp [h]

theorem afterNL_append : ∀ (aS : Bool) (a b : List Char),
    afterNL aS (a ++ b) = afterNL (afterNL aS a) b
  | _, [], _ => rfl
  | aS, c :: a', b => afterNL_append (c == '\n') a' b

theorem afterNL_snoc_nl (aS : Bool) (a : List Char) : afterNL aS (a ++ ['\n']) = true := by
  rw [afterNL_append]
  rfl

theorem nl_not_mem_scissorsLit : '\n' ∉ scissorsLit := by decide

/-- Scanning passes through a chunk that contains no hash character: the marker
can only match at a hash. -/
theorem splitScissors_no_hash : ∀ (aS : Bool) (b x : List Char), '#' ∉ b →
    splitScissors aS (b ++ x) =
      (b ++ (splitScissors (afterNL aS b) x).1, (splitScissors (afterNL aS b) x).2)
  | _, [], _, _ => by simp [afterNL]
  | aS, c :: b', x, hb => by
    have hc : ¬c = '#' := fun h => hb (h ▸ List.mem_cons_self c b')
    rw [List.cons_append, splitScissors,
      if_neg (by rw [scissorsAt_cons_ne _ hc, Bool.and_false]; exact Bool.false_ne_true)]
    rw [splitScissors_no_hash (c == '\n') b' x (fun hm => hb (List.mem_cons_of_mem _ hm))]
    rfl

/-- Scanning passes through a chunk in which it found no marker, provided the
appended text starts with a newline (so no marker occurrence can straddle the
boundary: the literal contains no newline). -/
theorem splitScissors_clean_append : ∀ (aS : Bool) (b x' : List Char),
    splitScissors aS b = (b, []) →
    splitScissors aS (b ++ '\n' :: x') =
      (b ++ (splitScissors (afterNL aS b) ('\n' :: x')).1,
       (splitScissors (afterNL aS b) ('\n' :: x')).2)
  | _, [], _, _ => by simp [afterNL]
  | aS, c :: b', x', hclean => by
    rw [splitScissors] at hclean
    by_cases hguard : (aS && scissorsAt (c :: b')) = true
    · rw [if_pos hguard] at hclean
      simp only [Prod.mk.injEq] at hclean
      exact absurd hclean.1.symm (by simp)
    · rw [if_neg hguard] at hclean
      simp only [Prod.mk.injEq, List.cons.injEq, true_and] at hclean
      have hb' : splitScissors (c == '\n') b' = (b', []) := Prod.ext hclean.1 hclean.2
      have hguard2 : (aS && scissorsAt (c :: (b' ++ '\n' :: x'))) = false := by
        cases haS : aS with
        | false => rfl
        | true =>
          have hfull : scissorsAt (c :: b') = false := by
            cases hx : scissorsAt (c :: b') with
            | false => rfl
            | true => exact absurd (by rw [haS, hx]; rfl) hguard
          have hnone : litRun scissorsLit ((c :: b') ++ '\n' :: x') = none :=
            litRun_append_char_none x' nl_not_mem_scissorsLit
              (by simpa [scissorsAt] using hfull)
          rw [List.cons_append] at hnone
          simp [scissorsAt, hnone]
      rw [List.cons_append, splitScissors,
        if_neg (by rw [hguard2]; exact Bool.false_ne_true),
        splitScissors_clean_append (c == '\n') b' x' hb']
      rfl

/-- A successful search over a suffix extends to the whole text when the carried
line-start flag agrees. -/
theorem lineStartsWith_append_right (l : List Char) : ∀ (aS : Bool) (x y : List Char),
    lineStartsWithAux l (afterNL aS x) y = true → lineStartsWithAux l aS (x ++ y) = true
  | _, [], _, h => h
  | aS, c :: x', y, h => by
    rw [List.cons_append, lineStartsWithAux,
      lineStartsWith_append_right l (c == '\n') x' y h, Bool.or_true]

theorem lineStartsWith_head {l : List Char} (r : List Char) (hl : l ≠ []) :
    lineStartsWithAux l true (l ++ r) = true := by
  cases l with
  | nil => exact absurd rfl hl
  | cons a l' =>
    have hlit := litRun_append_self (a :: l') r
    rw [List.cons_append] at hlit
    rw [List.cons_append, lineStartsWithAux, hlit]
    rfl

/-! ### Characterization of the append step and of its output -/

theorem appendToCommitMsg_eq_some {br : Branch} {msg out : List Char}
    (h : appendToCommitMsg br msg = some out) :
    br.is_wip_hack = false ∧
    ((mkCommitMessage br msg).prnj_found && !br.is_proj) = false ∧
    (mkCommitMessage br msg).dev_found = false ∧
    missingIds br (mkCommitMessage br msg) ≠ [] ∧
    out = rewriteText (mkCommitMessage br msg)
      (intercalateNL (missingIds br (mkCommitMessage br msg))) := by
  rw [appendToCommitMsg] at h
  by_cases h1 : br.is_wip_hack = true
  · rw [if_pos h1] at h
    exact absurd h (by simp)
  · rw [if_neg h1] at h
    by_cases h2 : (((mkCommitMessage br msg).prnj_found && !br.is_proj) ||
        (mkCommitMessage br msg).dev_found) = true
    · rw [if_pos h2] at h
      exact absurd h (by simp)
    · rw [if_neg h2] at h
      by_cases h3 : missingIds br (mkCommitMessage br msg) = []
      · rw [if_pos h3] at h
        exact absurd h (by simp)
      · rw [if_neg h3] at h
        injection h with h
        simp only [Bool.or_eq_true, not_or, Bool.not_eq_true] at h2
        exact ⟨Bool.not_eq_true _ ▸ h1, h2.1, h2.2, h3, h.symm⟩

theorem splitScissors_nl (aS : Bool) (x : List Char) :
    splitScissors aS ('\n' :: x) =
      ('\n' :: (splitScissors true x).1, (splitScissors true x).2) := by
  rw [splitScissors, if_neg]
  · rfl
  · rw [scissorsAt_cons_ne x (by decide), Bool.and_false]
    exact Bool.false_ne_true

/-- The body of the rewritten message extends the original body with the blank
separator and the appended identifier block (the marker scan passes over the
hash-free identifier block and stops no earlier than it did originally). -/
theorem msgBody_of_rewrite (br : Branch) (msg ids : List Char) (hhash : '#' ∉ ids) :
    ∃ W, msgBody (rewriteText (mkCommitMessage br msg) ids) =
      msgBody msg ++ '\n' :: '\n' :: (ids ++ W) := by
  have hsub := splitFirstNL_append
    (msgBody msg ++ '\n' :: '\n' :: (ids ++ '\n' :: (msgRest msg ++ ['\n'])))
    (splitFirstNL_no_nl msg)
  have hclean : splitScissors true (msgBody msg) = (msgBody msg, []) :=
    splitScissors_body_clean true (msgBelow msg)
  refine ⟨'\n' :: (splitScissors true (msgRest msg ++ ['\n'])).1, ?_⟩
  rw [msgBody, msgBelow, rewriteText,
    show (mkCommitMessage br msg).subject = (splitFirstNL msg).1 from rfl,
    show (mkCommitMessage br msg).body = msgBody msg from rfl,
    show (mkCommitMessage br msg).rest = msgRest msg from rfl,
    hsub]
  simp only []
  rw [splitScissors_clean_append true (msgBody msg) _ hclean, splitScissors_nl,
    splitScissors_nl]
  have hassoc : ids ++ '\n' :: (msgRest msg ++ ['\n']) =
      (ids ++ ['\n']) ++ (msgRest msg ++ ['\n']) := by simp
  rw [hassoc, splitScissors_no_hash true (ids ++ ['\n']) _ ?hh, afterNL_snoc_nl]
  case hh =>
    intro hm
    rcases List.mem_append.1 hm with hm | hm
    · exact hhash hm
    · simp at hm
  simp

theorem lsw_nl_step {l : List Char} (aS : Bool) {y : List Char}
    (h : lineStartsWithAux l true y = true) : lineStartsWithAux l aS ('\n' :: y) = true := by
  rw [lineStartsWithAux, show (('\n' : Char) == '\n') = true from rfl, h, Bool.or_true]

theorem found_prefix_in_body (a W b : List Char) (ha : a ≠ []) :
    lineStartsWithAux a true (b ++ '\n' :: '\n' :: (a ++ W)) = true := by
  apply lineStartsWith_append_right a true b
  apply lsw_nl_step
  apply lsw_nl_step
  exact lineStartsWith_head W ha

theorem intercalateNL_cons2 (a b : List Char) (l : List (List Char)) :
    intercalateNL (a :: b :: l) = a ++ '\n' :: intercalateNL (b :: l) := rfl

theorem intercalateNL_cons_prefix (a : List Char) (l : List (List Char)) :
    ∃ w, intercalateNL (a :: l) = a ++ w := by
  cases l with
  | nil => exact ⟨[], by simp [intercalateNL]⟩
  | cons b l' => exact ⟨'\n' :: intercalateNL (b :: l'), rfl⟩

theorem hash_not_mem_intercalateNL {l : List (List Char)} (h : ∀ a ∈ l, '#' ∉ a) :
    '#' ∉ intercalateNL l := by
  induction l with
  | nil => simp [intercalateNL]
  | cons a l' ih =>
    cases l' with
    | nil => simpa [intercalateNL] using h a (by simp)
    | cons b l'' =>
      rw [intercalateNL_cons2]
      intro hm
      rcases List.mem_append.1 hm with hm | hm
      · exact h a (by simp) hm
      · rcases List.mem_cons.1 hm with heq | hm
        · exact absurd heq (by decide)
        · exact ih (fun x hx => h x (List.mem_cons_of_mem _ hx)) hm

theorem digit_char_props {x : Char} (h : isDigitC x = true) : x ≠ '#' ∧ x ≠ '\n' := by
  constructor <;> rintro rfl <;> exact absurd h (by decide)

theorem prnjId_props {nd : List Char} (hdig : ∀ x ∈ nd, isDigitC x = true) :
    ("PRNJ-".data ++ nd) ≠ [] ∧ '#' ∉ "PRNJ-".data ++ nd := by
  constructor
  · simp [show "PRNJ-".data = 'P' :: 'R' :: 'N' :: 'J' :: '-' :: [] from rfl]
  · intro hm
    rcases List.mem_append.1 hm with hm | hm
    · exact absurd hm (by decide)
    · exact (digit_char_props (hdig _ hm)).1 rfl

theorem devIdNum_props {md : List Char} (hdig : ∀ x ∈ md, isDigitC x = true) :
    ("DEV-".data ++ md) ≠ [] ∧ '#' ∉ "DEV-".data ++ md := by
  constructor
  · simp [show "DEV-".data = 'D' :: 'E' :: 'V' :: '-' :: [] from rfl]
  · intro hm
    rcases List.mem_append.1 hm with hm | hm
    · exact absurd hm (by decide)
    · exact (digit_char_props (hdig _ hm)).1 rfl

theorem missingIds_subset {br : Branch} {cm : CommitMessage} :
    ∀ a ∈ missingIds br cm, br.dev = some a ∨ br.prnj = some a := by
  intro a ha
  rw [missingIds] at ha
  rcases List.mem_append.1 ha with ha | ha
  · left
    cases hd : br.dev with
    | none => simp [hd] at ha
    | some d =>
      simp only [hd] at ha
      split at ha
      · simp only [List.mem_singleton] at ha
        rw [ha]
      · simp at ha
  · right
    cases hp : br.prnj with
    | none => simp [hp] at ha
    | some q =>
      simp only [hp] at ha
      split at ha
      · simp only [List.mem_singleton] at ha
        rw [ha]
      · simp at ha

/-- Auxiliary: a dev id of the branch that the append step would write is
nonempty and hash-free. -/
theorem found_some_in_out {l out : List Char} (hne : l ≠ [])
    (hlsw : lineStartsWithAux l true (msgBody out) = true) :
    foundInBody (some l) (msgBody out) = true := by
  simp only [foundInBody, hlsw, Bool.and_true]
  simp [List.isEmpty_eq_false.2 hne]

/-- Re-running the append step on its own output writes nothing: the identifiers
appended by the first run are found at line starts of the new body, so the
second run returns before writing. -/
theorem append_twice_none {name : List Char} {br : Branch} {msg out : List Char}
    (hbr : getBranch name = .ok br) (h : appendToCommitMsg br msg = some out) :
    appendToCommitMsg br out = none := by
  obtain ⟨hwip, hguard1, hdevf, hpartsne, hout⟩ := appendToCommitMsg_eq_some h
  rcases getBranch_ok_shape hbr with hw | ⟨_, _, ⟨nd, hprnj, hndne, hnddig⟩, hdevsh, hprojdev⟩
  · rw [hwip] at hw
    exact absurd hw (by simp)
  have hpne : ("PRNJ-".data ++ nd) ≠ [] := (prnjId_props hnddig).1
  have hidprops : ∀ a ∈ missingIds br (mkCommitMessage br msg), a ≠ [] ∧ '#' ∉ a := by
    intro a ha
    rcases missingIds_subset a ha with hda | hpa
    · rcases hdevsh with hnone | hmark | ⟨md, hmd, hmdne, hmddig⟩
      · rw [hnone] at hda
        exact absurd hda (by simp)
      · rw [hmark] at hda
        injection hda with hda
        rw [← hda]
        exact ⟨by decide, by decide⟩
      · rw [hmd] at hda
        injection hda with hda
        rw [← hda]
        exact devIdNum_props hmddig
    · rw [hprnj] at hpa
      injection hpa with hpa
      rw [← hpa]
      exact prnjId_props hnddig
  have hhash : '#' ∉ intercalateNL (missingIds br (mkCommitMessage br msg)) :=
    hash_not_mem_intercalateNL (fun a ha => (hidprops a ha).2)
  obtain ⟨W, hbody⟩ := msgBody_of_rewrite br msg _ hhash
  rw [← hout] at hbody
  cases hdev : br.dev with
  | none =>
    -- no dev id: the branch is not a proj branch, and only the project id was missing
    have hproj : br.is_proj = false := by
      cases hpj : br.is_proj with
      | false => rfl
      | true =>
        have := hprojdev hpj
        rw [hdev] at this
        simp [optTruthy] at this
    by_cases hpf : (mkCommitMessage br msg).prnj_found = true
    · exfalso
      apply hpartsne
      simp [missingIds, hdev, hprnj, hpf]
    · rw [Bool.not_eq_true] at hpf
      have hparts_eq : missingIds br (mkCommitMessage br msg) = ["PRNJ-".data ++ nd] := by
        simp [missingIds, hdev, hprnj, hpf, hpne]
      rw [hparts_eq] at hbody
      simp only [intercalateNL] at hbody
      have hfound : (mkCommitMessage br out).prnj_found = true := by
        show foundInBody br.prnj (msgBody out) = true
        rw [hprnj]
        refine found_some_in_out hpne ?_
        rw [hbody]
        exact found_prefix_in_body _ W (msgBody msg) hpne
      have hdevf' : (mkCommitMessage br out).dev_found = false := by
        show foundInBody br.dev (msgBody out) = false
        rw [hdev]
        rfl
      rw [appendToCommitMsg, if_neg (by rw [hwip]; exact Bool.false_ne_true),
        if_pos (by rw [hfound, hdevf', hproj]; rfl)]
  | some d =>
    by_cases hdm : d = "DEV".data
    · -- marker-only dev id: never appended; only the project id could be missing
      subst hdm
      by_cases hpf : (mkCommitMessage br msg).prnj_found = true
      · exfalso
        apply hpartsne
        simp [missingIds, hdev, hprnj, hpf]
      · rw [Bool.not_eq_true] at hpf
        have hparts_eq : missingIds br (mkCommitMessage br msg) = ["PRNJ-".data ++ nd] := by
          simp [missingIds, hdev, hprnj, hpf, hpne]
        rw [hparts_eq] at hbody
        simp only [intercalateNL] at hbody
        have hfound : (mkCommitMessage br out).prnj_found = true := by
          show foundInBody br.prnj (msgBody out) = true
          rw [hprnj]
          refine found_some_in_out hpne ?_
          rw [hbody]
          exact found_prefix_in_body _ W (msgBody msg) hpne
        rw [appendToCommitMsg, if_neg (by rw [hwip]; exact Bool.false_ne_true)]
        by_cases hg : (((mkCommitMessage br out).prnj_found && !br.is_proj) ||
            (mkCommitMessage br out).dev_found) = true
        · rw [if_pos hg]
        · rw [if_neg hg, if_pos ?hnil]
          case hnil =>
            simp [missingIds, hdev, hprnj, hfound]
    · -- a pinned dev id missing from the body is appended first
      have hdne : d ≠ [] := by
        rcases hdevsh with hnone | hmark | ⟨md, hmd, hmdne, hmddig⟩
        · rw [hnone] at hdev
          exact absurd hdev (by simp)
        · rw [hmark] at hdev
          injection hdev with hdev
          exact absurd hdev.symm hdm
        · rw [hmd] at hdev
          injection hdev with hdev
          rw [← hdev]
          exact (devIdNum_props hmddig).1
      have hparts_eq : ∃ rest, missingIds br (mkCommitMessage br msg) = d :: rest := by
        refine ⟨(match br.prnj with
          | some p => if p ≠ [] ∧ (mkCommitMessage br msg).prnj_found = false then [p] else []
          | none => []), ?_⟩
        simp [missingIds, hdev, hdne, hdm, hdevf]
      obtain ⟨rest, hparts_eq⟩ := hparts_eq
      rw [hparts_eq] at hbody
      obtain ⟨w, hw⟩ := intercalateNL_cons_prefix d rest
      rw [hw, List.append_assoc] at hbody
      have hfound : (mkCommitMessage br out).dev_found = true := by
        show foundInBody br.dev (msgBody out) = true
        rw [hdev]
        refine found_some_in_out hdne ?_
        rw [hbody]
        exact found_prefix_in_body _ (w ++ W) (msgBody msg) hdne
      rw [appendToCommitMsg, if_neg (by rw [hwip]; exact Bool.false_ne_true),
        if_pos (by rw [hfound, Bool.or_true])]

/-! ### The claims -/

/-- C2: The append step is idempotent: whenever a first run rewrites the message
file, running the append step again on the rewritten text performs no write, so
the text after the second run is byte-identical to the result of the first. -/
theorem claim_C2_append_idempotent (name : List Char) (br : Branch) (msg out : List Char)
    (hbr : getBranch name = .ok br) (h : appendToCommitMsg br msg = some out) :
    appendToCommitMsg br out = none :=
  append_twice_none hbr h

/-- Witness for C2 at branch PRNJ-1-fix and message "s", blank line, "b". -/
theorem claim_C2_witness :
    (getBranch "PRNJ-1-fix".data =
        .ok { branch_name := "PRNJ-1-fix".data, prnj := some "PRNJ-1".data } ∧
      appendToCommitMsg { branch_name := "PRNJ-1-fix".data, prnj := some "PRNJ-1".data }
        "s\n\nb\n".data = some "s\n\nb\n\n\nPRNJ-1\n\n".data) ∧
    appendToCommitMsg { branch_name := "PRNJ-1-fix".data, prnj := some "PRNJ-1".data }
      "s\n\nb\n\n\nPRNJ-1\n\n".data = none :=
  ⟨⟨by decide, by decide⟩,
    claim_C2_append_idempotent "PRNJ-1-fix".data _ "s\n\nb\n".data _ (by decide) (by decide)⟩

/-- C6 (amended): whenever the append step rewrites the message, the output is
the layout the specification states - subject, newline, body unmodified, a
blank line, the joined missing identifiers, newline, trailer - followed by one
extra terminating newline that the writer appends after the trailer. -/
theorem claim_C6_amended_rewrite_layout (br : Branch) (msg out : List Char)
    (h : appendToCommitMsg br msg = some out) :
    out = specRewriteText (mkCommitMessage br msg)
      (intercalateNL (missingIds br (mkCommitMessage br msg))) ++ ['\n'] := by
  obtain ⟨-, -, -, -, hout⟩ := appendToCommitMsg_eq_some h
  rw [hout, rewriteText, specRewriteText]
  simp

/-- C6 counterexample: at branch PRNJ-1-fix and message "s", blank, "b", the
rewritten file is not the layout the claim states: the writer adds a newline
after the trailer. -/
theorem claim_C6_counterexample :
    appendToCommitMsg { branch_name := "PRNJ-1-fix".data, prnj := some "PRNJ-1".data }
      "s\n\nb\n".data = some "s\n\nb\n\n\nPRNJ-1\n\n".data ∧
    "s\n\nb\n\n\nPRNJ-1\n\n".data ≠
      specRewriteText
        (mkCommitMessage { branch_name := "PRNJ-1-fix".data, prnj := some "PRNJ-1".data }
          "s\n\nb\n".data)
        (intercalateNL (missingIds
          { branch_name := "PRNJ-1-fix".data, prnj := some "PRNJ-1".data }
          (mkCommitMessage { branch_name := "PRNJ-1-fix".data, prnj := some "PRNJ-1".data }
            "s\n\nb\n".data))) :=
  ⟨by decide, by decide⟩

/-- Witness for the amended C6 at the same concrete branch and message. -/
theorem claim_C6_witness :
    appendToCommitMsg { branch_name := "PRNJ-1-fix".data, prnj := some "PRNJ-1".data }
      "s\n\nb\n".data = some "s\n\nb\n\n\nPRNJ-1\n\n".data ∧
    "s\n\nb\n\n\nPRNJ-1\n\n".data =
      specRewriteText
        (mkCommitMessage { branch_name := "PRNJ-1-fix".data, prnj := some "PRNJ-1".data }
          "s\n\nb\n".data)
        (intercalateNL (missingIds
          { branch_name := "PRNJ-1-fix".data, prnj := some "PRNJ-1".data }
          (mkCommitMessage { branch_name := "PRNJ-1-fix".data, prnj := some "PRNJ-1".data }
            "s\n\nb\n".data))) ++ ['\n'] :=
  ⟨by decide, claim_C6_amended_rewrite_layout _ "s\n\nb\n".data _ (by decide)⟩

/-- C7 (code bug in the classifier): the stub branch names PRNJ-12345-DEV-54321
and PRNJ-12345-DEV, which the anchored no-description probe of the failure
diagnostics is written to flag, are accepted by the structured match through
backtracking: the dev part is reparsed as the trailing description. Only the
bare stub PRNJ-12345 reaches the intended no-description diagnostic. -/
theorem claim_C7_stub_accepted :
    getBranch "PRNJ-12345-DEV-54321".data =
      .ok { branch_name := "PRNJ-12345-DEV-54321".data,
            prnj := some "PRNJ-12345".data, dev := some "DEV".data } ∧
    noDescription "PRNJ-12345-DEV-54321".data = true ∧
    getBranch "PRNJ-12345-DEV".data =
      .ok { branch_name := "PRNJ-12345-DEV".data, prnj := some "PRNJ-12345".data } ∧
    noDescription "PRNJ-12345-DEV".data = true ∧
    getBranch "PRNJ-12345".data =
      .error (malformedMsg ["could not find a branch description"]) :=
  ⟨by decide, by decide, by decide, by decide, by decide⟩

/-- C8: on a branch with one of the wip-, wip/, hack-, hack/, poc-, poc/
prefixes, whatever follows the prefix: classification is the always-valid wip
record, the append step performs no write, and check-message succeeds with the
message file unchanged. -/
theorem claim_C8_wip_unchanged (p rest msg : List Char) (autoAppend : Bool)
    (hp : p ∈ wipPrefixes) :
    getBranch (p ++ rest) = .ok { branch_name := p ++ rest, is_wip_hack := true } ∧
    appendToCommitMsg { branch_name := p ++ rest, is_wip_hack := true } msg = none ∧
    checkMessageCmd (p ++ rest) msg autoAppend = .ok msg := by
  refine ⟨getBranch_wip rest hp, rfl, ?_⟩
  rw [checkMessageCmd, getBranch_wip rest hp]
  cases autoAppend <;> rfl

/-- Witness for C8 at branch wip-anything!! and message "zzz". -/
theorem claim_C8_witness :
    "wip-".data ∈ wipPrefixes ∧
    (getBranch ("wip-".data ++ "anything!!".data) =
        .ok { branch_name := "wip-".data ++ "anything!!".data, is_wip_hack := true } ∧
      appendToCommitMsg { branch_name := "wip-".data ++ "anything!!".data, is_wip_hack := true }
        "zzz".data = none ∧
      checkMessageCmd ("wip-".data ++ "anything!!".data) "zzz".data true = .ok "zzz".data) :=
  ⟨by decide, claim_C8_wip_unchanged "wip-".data "anything!!".data "zzz".data true (by decide)⟩

/-- C9: for a message containing the cut-marker line, the presence checks are a
function of the body before the marker only, and whenever the append step
rewrites the message, the marker line and everything after it appear in the
output as one unaltered contiguous block (followed only by the writer's final
newline). -/
theorem claim_C9_cut_marker (br : Branch) (msg : List Char) (hmark : msgRest msg ≠ []) :
    (∀ m', msgBody m' = msgBody msg →
      (mkCommitMessage br m').prnj_found = (mkCommitMessage br msg).prnj_found ∧
      (mkCommitMessage br m').dev_found = (mkCommitMessage br msg).dev_found) ∧
    (∀ out, appendToCommitMsg br msg = some out →
      ∃ pre, out = pre ++ (msgRest msg ++ ['\n'])) := by
  constructor
  · intro m' hb
    constructor
    · show foundInBody br.prnj (msgBody m') = foundInBody br.prnj (msgBody msg)
      rw [hb]
    · show foundInBody br.dev (msgBody m') = foundInBody br.dev (msgBody msg)
      rw [hb]
  · intro out h
    obtain ⟨-, -, -, -, hout⟩ := appendToCommitMsg_eq_some h
    refine ⟨(mkCommitMessage br msg).subject ++ '\n' :: ((mkCommitMessage br msg).body ++
      '\n' :: '\n' :: (intercalateNL (missingIds br (mkCommitMessage br msg)) ++ ['\n'])), ?_⟩
    rw [hout, rewriteText, show (mkCommitMessage br msg).rest = msgRest msg from rfl]
    simp

/-- Witness for C9 at branch PRNJ-7-z and a message containing the cut marker. -/
theorem claim_C9_witness :
    msgRest "s\nbody\n# ------------------------ >8 ------------------------\ntail\n".data ≠ [] ∧
    ((∀ m', msgBody m' =
        msgBody "s\nbody\n# ------------------------ >8 ------------------------\ntail\n".data →
      (mkCommitMessage { branch_name := "PRNJ-7-z".data, prnj := some "PRNJ-7".data } m').prnj_found =
        (mkCommitMessage { branch_name := "PRNJ-7-z".data, prnj := some "PRNJ-7".data }
          "s\nbody\n# ------------------------ >8 ------------------------\ntail\n".data).prnj_found ∧
      (mkCommitMessage { branch_name := "PRNJ-7-z".data, prnj := some "PRNJ-7".data } m').dev_found =
        (mkCommitMessage { branch_name := "PRNJ-7-z".data, prnj := some "PRNJ-7".data }
          "s\nbody\n# ------------------------ >8 ------------------------\ntail\n".data).dev_found) ∧
    (∀ out, appendToCommitMsg { branch_name := "PRNJ-7-z".data, prnj := some "PRNJ-7".data }
        "s\nbody\n# ------------------------ >8 ------------------------\ntail\n".data = some out →
      ∃ pre, out = pre ++
        (msgRest "s\nbody\n# ------------------------ >8 ------------------------\ntail\n".data ++
          ['\n']))) :=
  ⟨by decide, claim_C9_cut_marker _ _ (by decide)⟩

/-- C1: on a branch proj/PRNJ-n-DEV-m-description, for every message whose body
contains neither PRNJ-n nor DEV-m at a line start, the append step rewrites the
file so that after the original body come a blank line, a line exactly DEV-m,
then a line exactly PRNJ-n, then the trailer. -/
theorem claim_C1_proj_dev_append (n m d msg : List Char) (c : Char)
    (hn : n ≠ []) (hnd : ∀ x ∈ n, isDigitC x = true)
    (hm : m ≠ []) (hmd : ∀ x ∈ m, isDigitC x = true) (hc : isWordC c = true)
    (hbody1 : lineStartsWithAux ("PRNJ-".data ++ n) true (msgBody msg) = false)
    (hbody2 : lineStartsWithAux ("DEV-".data ++ m) true (msgBody msg) = false) :
    getBranch ("proj/PRNJ-".data ++ n ++ "-DEV-".data ++ m ++ '-' :: c :: d) =
      .ok { branch_name := "proj/PRNJ-".data ++ n ++ "-DEV-".data ++ m ++ '-' :: c :: d,
            is_wip_hack := false, is_hotfix := false, is_proj := true,
            prnj := some ("PRNJ-".data ++ n), dev := some ("DEV-".data ++ m) } ∧
    appendToCommitMsg
      { branch_name := "proj/PRNJ-".data ++ n ++ "-DEV-".data ++ m ++ '-' :: c :: d,
        is_wip_hack := false, is_hotfix := false, is_proj := true,
        prnj := some ("PRNJ-".data ++ n), dev := some ("DEV-".data ++ m) } msg =
      some (msgSubject msg ++ '\n' :: (msgBody msg ++ '\n' :: '\n' ::
        (("DEV-".data ++ m) ++ '\n' :: (("PRNJ-".data ++ n) ++ '\n' ::
          (msgRest msg ++ ['\n']))))) := by
  refine ⟨getBranch_proj_dev n m d c hn hnd hm hmd hc, ?_⟩
  have hbody1' : lineStartsWithAux ('P' :: 'R' :: 'N' :: 'J' :: '-' :: n) true (msgBody msg) = false :=
    hbody1
  have hbody2' : lineStartsWithAux ('D' :: 'E' :: 'V' :: '-' :: m) true (msgBody msg) = false :=
    hbody2
  have hpne' : ('P' :: 'R' :: 'N' :: 'J' :: '-' :: n : List Char) ≠ [] := by simp
  have hdne' : ('D' :: 'E' :: 'V' :: '-' :: m : List Char) ≠ [] := by simp
  have hdnm' : ('D' :: 'E' :: 'V' :: '-' :: m : List Char) ≠ "DEV".data := by
    intro he
    simp [show ("DEV".data : List Char) = ['D', 'E', 'V'] from rfl] at he
  have hpf : foundInBody (some ('P' :: 'R' :: 'N' :: 'J' :: '-' :: n)) (msgBody msg) = false := by
    simp [foundInBody, hbody1']
  have hdf : foundInBody (some ('D' :: 'E' :: 'V' :: '-' :: m)) (msgBody msg) = false := by
    simp [foundInBody, hbody2']
  rw [appendToCommitMsg]
  rw [if_neg (show ¬(false = true) from Bool.false_ne_true)]
  rw [if_neg ?hg]
  case hg =>
    show ¬((foundInBody (some ('P' :: 'R' :: 'N' :: 'J' :: '-' :: n)) (msgBody msg) && !true) ||
      foundInBody (some ('D' :: 'E' :: 'V' :: '-' :: m)) (msgBody msg)) = true
    rw [hpf, hdf]
    simp
  have hparts : missingIds
      { branch_name := "proj/PRNJ-".data ++ n ++ "-DEV-".data ++ m ++ '-' :: c :: d,
        is_wip_hack := false, is_hotfix := false, is_proj := true,
        prnj := some ("PRNJ-".data ++ n), dev := some ("DEV-".data ++ m) }
      (mkCommitMessage
        { branch_name := "proj/PRNJ-".data ++ n ++ "-DEV-".data ++ m ++ '-' :: c :: d,
          is_wip_hack := false, is_hotfix := false, is_proj := true,
          prnj := some ("PRNJ-".data ++ n), dev := some ("DEV-".data ++ m) } msg) =
      [("DEV-".data ++ m), ("PRNJ-".data ++ n)] := by
    rw [missingIds]
    simp only [mkCommitMessage]
    rw [if_pos ⟨hdne', hdnm', hdf⟩, if_pos ⟨hpne', hpf⟩]
    rfl
  rw [hparts]
  rw [if_neg (by simp)]
  rw [intercalateNL_cons2]
  simp only [intercalateNL, rewriteText, mkCommitMessage]
  simp

/-- Witness for C1 at branch proj/PRNJ-12345-DEV-54321-implement-feature and
message "feat: add X", blank line, "Some body". -/
theorem claim_C1_witness :
    (("12345".data : List Char) ≠ [] ∧ (∀ x ∈ ("12345".data : List Char), isDigitC x = true) ∧
     ("54321".data : List Char) ≠ [] ∧ (∀ x ∈ ("54321".data : List Char), isDigitC x = true) ∧
     isWordC 'i' = true ∧
     lineStartsWithAux ("PRNJ-".data ++ "12345".data) true
       (msgBody "feat: add X\n\nSome body\n".data) = false ∧
     lineStartsWithAux ("DEV-".data ++ "54321".data) true
       (msgBody "feat: add X\n\nSome body\n".data) = false) ∧
    appendToCommitMsg
      { branch_name := "proj/PRNJ-".data ++ "12345".data ++ "-DEV-".data ++ "54321".data ++
          '-' :: 'i' :: "mplement-feature".data,
        is_wip_hack := false, is_hotfix := false, is_proj := true,
        prnj := some ("PRNJ-".data ++ "12345".data), dev := some ("DEV-".data ++ "54321".data) }
      "feat: add X\n\nSome body\n".data =
      some (msgSubject "feat: add X\n\nSome body\n".data ++ '\n' ::
        (msgBody "feat: add X\n\nSome body\n".data ++ '\n' :: '\n' ::
        (("DEV-".data ++ "54321".data) ++ '\n' :: (("PRNJ-".data ++ "12345".data) ++ '\n' ::
          (msgRest "feat: add X\n\nSome body\n".data ++ ['\n']))))) :=
  ⟨⟨by decide, by decide, by decide, by decide, by decide, by decide, by decide⟩,
    (claim_C1_proj_dev_append "12345".data "54321".data "mplement-feature".data
      "feat: add X\n\nSome body\n".data 'i' (by decide) (by decide) (by decide) (by decide)
      (by decide) (by decide) (by decide)).2⟩

/-- Unfolding of check-message once the branch has classified successfully. -/
theorem checkMessageCmd_ok_branch {name : List Char} {br : Branch} (msg : List Char) (aa : Bool)
    (hbr : getBranch name = .ok br) :
    checkMessageCmd name msg aa =
      (let m1 := if aa then (appendToCommitMsg br msg).getD msg else msg
       let cm := mkCommitMessage br m1
       if br.is_wip_hack then .ok m1
       else if !cm.prnj_found then .error (prnjMissingMsg br)
       else if br.is_proj && !(br.is_dev_without_number || cm.dev_found) then
         .error (devMissingMsg br)
       else .ok m1) := by
  rw [checkMessageCmd, hbr]
  rfl

/-- C3: every branch proj/PRNJ-n-description with no dev segment classifies as
the project-parent policy stop: get_branch fails with it, both entry points
propagate it (the append entry fails before any write), and its message is
distinct from every malformed-branch-name diagnostic. -/
theorem claim_C3_project_parent (n d msg : List Char) (autoAppend : Bool)
    (hn : n ≠ []) (hnd : ∀ x ∈ n, isDigitC x = true)
    (hd : d ≠ []) (hdw : ∀ x ∈ d, isWordC x = true) :
    getBranch ("proj/PRNJ-".data ++ n ++ '-' :: d) = .error projectParentMsg ∧
    checkBranchCmd ("proj/PRNJ-".data ++ n ++ '-' :: d) = .error projectParentMsg ∧
    appendCommand ("proj/PRNJ-".data ++ n ++ '-' :: d) msg = .error projectParentMsg ∧
    checkMessageCmd ("proj/PRNJ-".data ++ n ++ '-' :: d) msg autoAppend =
      .error projectParentMsg ∧
    ∀ parts : List String, projectParentMsg ≠ malformedMsg parts := by
  have hgb := getBranch_proj_nodev n d hn hnd hd hdw
  refine ⟨hgb, ?_, ?_, ?_, ?_⟩
  · rw [checkBranchCmd, hgb]
    rfl
  · rw [appendCommand, hgb]
    rfl
  · rw [checkMessageCmd, hgb]
    rfl
  · intro parts he
    have h1 : projectParentMsg.data.head? = some 'C' := rfl
    have h2 : (malformedMsg parts).data.head? = some 'B' := rfl
    rw [he, h2] at h1
    exact absurd h1 (by decide)

/-- Witness for C3 at branch proj/PRNJ-12345-description. -/
theorem claim_C3_witness :
    (("12345".data : List Char) ≠ [] ∧ (∀ x ∈ ("12345".data : List Char), isDigitC x = true) ∧
     ("description".data : List Char) ≠ [] ∧
     (∀ x ∈ ("description".data : List Char), isWordC x = true)) ∧
    (getBranch ("proj/PRNJ-".data ++ "12345".data ++ '-' :: "description".data) =
        .error projectParentMsg ∧
      checkBranchCmd ("proj/PRNJ-".data ++ "12345".data ++ '-' :: "description".data) =
        .error projectParentMsg ∧
      appendCommand ("proj/PRNJ-".data ++ "12345".data ++ '-' :: "description".data)
        "feat: x\n\nBody\n".data = .error projectParentMsg ∧
      checkMessageCmd ("proj/PRNJ-".data ++ "12345".data ++ '-' :: "description".data)
        "feat: x\n\nBody\n".data true = .error projectParentMsg ∧
      ∀ parts : List String, projectParentMsg ≠ malformedMsg parts) :=
  ⟨⟨by decide, by decide, by decide, by decide⟩,
    claim_C3_project_parent "12345".data "description".data "feat: x\n\nBody\n".data true
      (by decide) (by decide) (by decide) (by decide)⟩

/-- C4 counterexample: on branch proj/PRNJ-12345-DEV-54321-implement-feature,
with a message whose body has the dev id at a line start but lacks the project
id, the append step performs no write: the missing project id is not appended,
because the presence of the dev id fires the early return. -/
theorem claim_C4_counterexample :
    getBranch "proj/PRNJ-12345-DEV-54321-implement-feature".data =
      .ok { branch_name := "proj/PRNJ-12345-DEV-54321-implement-feature".data,
            is_proj := true, prnj := some "PRNJ-12345".data, dev := some "DEV-54321".data } ∧
    Branch.is_wip_hack
      { branch_name := "proj/PRNJ-12345-DEV-54321-implement-feature".data,
        is_proj := true, prnj := some "PRNJ-12345".data, dev := some "DEV-54321".data } = false ∧
    lineStartsWithAux "PRNJ-12345".data true (msgBody "feat: x\n\nDEV-54321\n".data) = false ∧
    appendToCommitMsg
      { branch_name := "proj/PRNJ-12345-DEV-54321-implement-feature".data,
        is_proj := true, prnj := some "PRNJ-12345".data, dev := some "DEV-54321".data }
      "feat: x\n\nDEV-54321\n".data = none :=
  ⟨by decide, by decide, by decide, by decide⟩

/-- C4 (amended): for every valid non-wip classification and message whose body
lacks a line starting with the project id, the append step appends the project
id provided the body also lacks a line starting with the branch dev id; when
the dev id is present the early return suppresses all appending. -/
theorem claim_C4_amended_append_prnj (name : List Char) (br : Branch) (msg p : List Char)
    (hbr : getBranch name = .ok br) (hwip : br.is_wip_hack = false) (hp : br.prnj = some p)
    (hpf : (mkCommitMessage br msg).prnj_found = false)
    (hdf : (mkCommitMessage br msg).dev_found = false) :
    ∃ x, appendToCommitMsg br msg =
      some (rewriteText (mkCommitMessage br msg) (x ++ p)) := by
  rcases getBranch_ok_shape hbr with hw | ⟨-, -, ⟨nd, hprnj, hndne, hnddig⟩, -, -⟩
  · rw [hwip] at hw
    exact absurd hw (by simp)
  have hpnd : p = "PRNJ-".data ++ nd := by
    rw [hp] at hprnj
    injection hprnj
  have hpne : p ≠ [] := by
    rw [hpnd]
    exact (prnjId_props hnddig).1
  rw [appendToCommitMsg, if_neg (by rw [hwip]; exact Bool.false_ne_true),
    if_neg (by rw [hpf, hdf]; simp)]
  have hparts2 : (match br.prnj with
      | some q => if q ≠ [] ∧ (mkCommitMessage br msg).prnj_found = false then [q] else []
      | none => []) = [p] := by
    rw [hp]
    exact if_pos ⟨hpne, hpf⟩
  have hparts : missingIds br (mkCommitMessage br msg) =
      (match br.dev with
        | some dd =>
          if dd ≠ [] ∧ dd ≠ "DEV".data ∧ (mkCommitMessage br msg).dev_found = false
          then [dd] else []
        | none => []) ++ [p] := by
    rw [missingIds, hparts2]
  cases hdev : br.dev with
  | none =>
    have hparts1 : (match br.dev with
        | some dd =>
          if dd ≠ [] ∧ dd ≠ "DEV".data ∧ (mkCommitMessage br msg).dev_found = false
          then [dd] else []
        | none => ([] : List (List Char))) = [] := by
      rw [hdev]
    rw [hparts, hparts1]
    refine ⟨[], ?_⟩
    rw [if_neg (by simp)]
    simp [intercalateNL]
  | some dvl =>
    by_cases hcond : dvl ≠ [] ∧ dvl ≠ "DEV".data ∧ (mkCommitMessage br msg).dev_found = false
    · have hparts1 : (match br.dev with
          | some dd =>
            if dd ≠ [] ∧ dd ≠ "DEV".data ∧ (mkCommitMessage br msg).dev_found = false
            then [dd] else []
          | none => ([] : List (List Char))) = [dvl] := by
        rw [hdev]
        exact if_pos hcond
      rw [hparts, hparts1]
      refine ⟨dvl ++ ['\n'], ?_⟩
      rw [if_neg (by simp)]
      rw [show ([dvl] ++ [p] : List (List Char)) = dvl :: p :: [] from rfl, intercalateNL_cons2]
      simp [intercalateNL]
    · have hparts1 : (match br.dev with
          | some dd =>
            if dd ≠ [] ∧ dd ≠ "DEV".data ∧ (mkCommitMessage br msg).dev_found = false
            then [dd] else []
          | none => ([] : List (List Char))) = [] := by
        rw [hdev]
        exact if_neg hcond
      rw [hparts, hparts1]
      refine ⟨[], ?_⟩
      rw [if_neg (by simp)]
      simp [intercalateNL]

/-- Witness for the amended C4 at branch PRNJ-9-work and message "t", blank,
"bb". -/
theorem claim_C4_witness :
    (getBranch "PRNJ-9-work".data =
        .ok { branch_name := "PRNJ-9-work".data, prnj := some "PRNJ-9".data } ∧
      Branch.is_wip_hack
        { branch_name := "PRNJ-9-work".data, prnj := some "PRNJ-9".data } = false ∧
      Branch.prnj { branch_name := "PRNJ-9-work".data, prnj := some "PRNJ-9".data } =
        some "PRNJ-9".data ∧
      (mkCommitMessage { branch_name := "PRNJ-9-work".data, prnj := some "PRNJ-9".data }
        "t\n\nbb\n".data).prnj_found = false ∧
      (mkCommitMessage { branch_name := "PRNJ-9-work".data, prnj := some "PRNJ-9".data }
        "t\n\nbb\n".data).dev_found = false) ∧
    ∃ x, appendToCommitMsg { branch_name := "PRNJ-9-work".data, prnj := some "PRNJ-9".data }
        "t\n\nbb\n".data =
      some (rewriteText
        (mkCommitMessage { branch_name := "PRNJ-9-work".data, prnj := some "PRNJ-9".data }
          "t\n\nbb\n".data) (x ++ "PRNJ-9".data)) :=
  ⟨⟨by decide, by decide, by decide, by decide, by decide⟩,
    claim_C4_amended_append_prnj "PRNJ-9-work".data _ "t\n\nbb\n".data "PRNJ-9".data
      (by decide) (by decide) (by decide) (by decide) (by decide)⟩

/-- C5 counterexample: on the hotfix branch hotfix/PRNJ-12345-DEV-54321-urgent-fix
(which carries a DEV segment) and a message lacking both identifiers, the
append step does write the dev id into the body: dev appending does not consult
the hotfix flag. -/
theorem claim_C5_counterexample :
    getBranch "hotfix/PRNJ-12345-DEV-54321-urgent-fix".data =
      .ok { branch_name := "hotfix/PRNJ-12345-DEV-54321-urgent-fix".data,
            is_hotfix := true, prnj := some "PRNJ-12345".data, dev := some "DEV-54321".data } ∧
    Branch.is_hotfix
      { branch_name := "hotfix/PRNJ-12345-DEV-54321-urgent-fix".data,
        is_hotfix := true, prnj := some "PRNJ-12345".data, dev := some "DEV-54321".data } = true ∧
    appendToCommitMsg
      { branch_name := "hotfix/PRNJ-12345-DEV-54321-urgent-fix".data,
        is_hotfix := true, prnj := some "PRNJ-12345".data, dev := some "DEV-54321".data }
      "fix: x\n\nBody\n".data = some "fix: x\n\nBody\n\n\nDEV-54321\nPRNJ-12345\n\n".data ∧
    lineStartsWithAux "DEV-54321".data true
      (msgBody "fix: x\n\nBody\n\n\nDEV-54321\nPRNJ-12345\n\n".data) = true :=
  ⟨by decide, by decide, by decide, by decide⟩

/-- C5 (amended): on a hotfix branch only the project id is required by
validation: check-message never fails for a missing dev id (its only possible
failure is the missing-project-id one); but when the branch name carries a
DEV-m segment and the body lacks it, the append step does append the dev id. -/
theorem claim_C5_amended_hotfix (name msg : List Char) (br : Branch) (autoAppend : Bool)
    (e : String) (hbr : getBranch name = .ok br) (hhf : br.is_hotfix = true)
    (he : checkMessageCmd name msg autoAppend = .error e) :
    e = prnjMissingMsg br := by
  rw [checkMessageCmd_ok_branch msg autoAppend hbr] at he
  simp only [] at he
  by_cases hw : br.is_wip_hack = true
  · rw [if_pos hw] at he
    exact absurd he (by simp)
  · rw [if_neg hw] at he
    have hproj : br.is_proj = false := by
      rcases getBranch_ok_shape hbr with hww | ⟨-, hhp, -, -, -⟩
      · exact absurd hww hw
      · cases hpj : br.is_proj with
        | false => rfl
        | true => exact absurd ⟨hhf, hpj⟩ hhp
    rw [hproj] at he
    by_cases hpf : (!(mkCommitMessage br
        (if autoAppend then (appendToCommitMsg br msg).getD msg else msg)).prnj_found) = true
    · rw [if_pos hpf] at he
      injection he with he
      exact he.symm
    · rw [if_neg hpf] at he
      rw [if_neg (by simp)] at he
      exact absurd he (by simp)

/-- Witness for the amended C5 at branch hotfix/PRNJ-1-fix with auto-append
disabled and a message lacking the project id. -/
theorem claim_C5_witness :
    (getBranch "hotfix/PRNJ-1-fix".data =
        .ok { branch_name := "hotfix/PRNJ-1-fix".data, is_hotfix := true, prnj := some "PRNJ-1".data } ∧
      Branch.is_hotfix
        { branch_name := "hotfix/PRNJ-1-fix".data, is_hotfix := true, prnj := some "PRNJ-1".data } =
        true ∧
      checkMessageCmd "hotfix/PRNJ-1-fix".data "s\n\nb\n".data false =
        .error "Did not find PRNJ-1 in commit message body") ∧
    "Did not find PRNJ-1 in commit message body" =
      prnjMissingMsg
        { branch_name := "hotfix/PRNJ-1-fix".data, is_hotfix := true, prnj := some "PRNJ-1".data } :=
  ⟨⟨by decide, by decide, by decide⟩,
    claim_C5_amended_hotfix "hotfix/PRNJ-1-fix".data "s\n\nb\n".data _ false _
      (by decide) (by decide) (by decide)⟩

theorem mem_devAlts_none (s : List Char) : (none, s) ∈ devAlts s := by
  rw [devAlts]
  exact List.mem_append_right _ (List.mem_singleton.2 rfl)

theorem mem_prefixAlts_skip (s : List Char) : (false, false, s) ∈ prefixAlts s := by
  rw [prefixAlts]
  exact List.mem_append_right _ (List.mem_singleton.2 rfl)

/-- C10 counterexample: proj/PRNJ-1-a matches the whole grammar, yet appending
junk yields a string whose classification still fails (with the project-parent
policy stop): classification of a string beginning with a grammar match does
not always succeed. -/
theorem claim_C10_counterexample :
    fullGrammarMatch "proj/PRNJ-1-a".data = true ∧
    getBranch ("proj/PRNJ-1-a".data ++ "!!!junk".data) = .error projectParentMsg :=
  ⟨by decide, by decide⟩

/-- C10 (amended): the classifier matches the pattern only as a prefix: for
every string beginning with a grammar match (optional disambiguator, PRNJ-n,
optional dev segment, hyphen and one word character), the structured match
succeeds no matter what characters follow, so trailing content never produces
the malformed-branch-name failure; the only failure classification can still
yield is the project-parent policy stop. -/
theorem claim_C10_amended_prefix_match (pre n dseg t : List Char) (c : Char)
    (hpre : pre = [] ∨ pre = "hotfix-".data ∨ pre = "hotfix/".data ∨ pre = "proj/".data)
    (hn : n ≠ []) (hnd : ∀ x ∈ n, isDigitC x = true)
    (hdseg : dseg = [] ∨ dseg = "-DEV".data ∨
      ∃ mm, mm ≠ [] ∧ (∀ x ∈ mm, isDigitC x = true) ∧ dseg = "-DEV-".data ++ mm)
    (hc : isWordC c = true) :
    (branchMatch (pre ++ "PRNJ-".data ++ n ++ dseg ++ '-' :: c :: t)).isSome = true ∧
    (∀ e, getBranch (pre ++ "PRNJ-".data ++ n ++ dseg ++ '-' :: c :: t) = .error e →
      e = projectParentMsg) := by
  have hsome : (branchMatch (pre ++ "PRNJ-".data ++ n ++ dseg ++ '-' :: c :: t)).isSome = true := by
    rw [branchMatch]
    apply head?_isSome_of_ne_nil
    have hdv : ∃ dv, (dv, '-' :: c :: t) ∈ devAlts (dseg ++ '-' :: c :: t) := by
      rcases hdseg with rfl | rfl | ⟨mm, hmm, hmmd, rfl⟩
      · exact ⟨none, by simpa using mem_devAlts_none ('-' :: c :: t)⟩
      · refine ⟨some "DEV".data, ?_⟩
        rw [show ("-DEV".data ++ '-' :: c :: t : List Char) =
          '-' :: 'D' :: 'E' :: 'V' :: '-' :: (c :: t) from rfl, devAlts_dash_digits]
        exact List.mem_append_left _ (List.mem_append_right _ (List.mem_singleton.2 rfl))
      · refine ⟨some ("DEV-".data ++ mm), ?_⟩
        rw [show (("-DEV-".data ++ mm) ++ '-' :: c :: t : List Char) =
          '-' :: 'D' :: 'E' :: 'V' :: '-' :: (mm ++ '-' :: c :: t) from rfl, devAlts_dash_digits]
        refine List.mem_append_left _ (List.mem_append_left _ ?_)
        exact List.mem_map.2 ⟨(mm, '-' :: c :: t), mem_plusSplits _ hmm hmmd, rfl⟩
    obtain ⟨dv, hdvmem⟩ := hdv
    have hpn : ("PRNJ-".data ++ n, dseg ++ '-' :: c :: t) ∈
        prnjAlts ("PRNJ-".data ++ (n ++ (dseg ++ '-' :: c :: t))) := by
      rw [show ("PRNJ-".data ++ (n ++ (dseg ++ '-' :: c :: t)) : List Char) =
        'P' :: 'R' :: 'N' :: 'J' :: '-' :: (n ++ (dseg ++ '-' :: c :: t)) from rfl,
        prnjAlts_eval]
      exact List.mem_map.2 ⟨(n, dseg ++ '-' :: c :: t), mem_plusSplits _ hn hnd, rfl⟩
    have hprx : ∃ b1 b2, (b1, b2, "PRNJ-".data ++ (n ++ (dseg ++ '-' :: c :: t))) ∈
        prefixAlts (pre ++ "PRNJ-".data ++ n ++ dseg ++ '-' :: c :: t) := by
      rcases hpre with rfl | rfl | rfl | rfl
      · refine ⟨false, false, ?_⟩
        have h := mem_prefixAlts_skip ("PRNJ-".data ++ (n ++ (dseg ++ '-' :: c :: t)))
        simpa [List.append_assoc] using h
      · refine ⟨true, false, ?_⟩
        rw [show ("hotfix-".data ++ "PRNJ-".data ++ n ++ dseg ++ '-' :: c :: t : List Char) =
          'h' :: 'o' :: 't' :: 'f' :: 'i' :: 'x' :: '-' ::
            ("PRNJ-".data ++ (n ++ (dseg ++ '-' :: c :: t))) from by simp,
          prefixAlts_hotfix_dash]
        simp
      · refine ⟨true, false, ?_⟩
        rw [show ("hotfix/".data ++ "PRNJ-".data ++ n ++ dseg ++ '-' :: c :: t : List Char) =
          'h' :: 'o' :: 't' :: 'f' :: 'i' :: 'x' :: '/' ::
            ("PRNJ-".data ++ (n ++ (dseg ++ '-' :: c :: t))) from by simp,
          prefixAlts_hotfix_slash]
        simp
      · refine ⟨false, true, ?_⟩
        rw [show ("proj/".data ++ "PRNJ-".data ++ n ++ dseg ++ '-' :: c :: t : List Char) =
          'p' :: 'r' :: 'o' :: 'j' :: '/' ::
            ("PRNJ-".data ++ (n ++ (dseg ++ '-' :: c :: t))) from by simp,
          prefixAlts_proj]
        simp
    obtain ⟨b1, b2, hprmem⟩ := hprx
    apply flatMap_ne_nil_of_mem hprmem
    apply flatMap_ne_nil_of_mem hpn
    apply flatMap_ne_nil_of_mem hdvmem
    rw [descOk_dash, hc]
    simp
  refine ⟨hsome, ?_⟩
  intro e he
  rw [getBranch] at he
  have hwip : isWipHack (pre ++ "PRNJ-".data ++ n ++ dseg ++ '-' :: c :: t) = false := by
    rcases hpre with rfl | rfl | rfl | rfl
    · exact rfl
    · exact rfl
    · exact rfl
    · exact rfl
  rw [if_neg (by rw [hwip]; exact Bool.false_ne_true)] at he
  cases hbm : branchMatch (pre ++ "PRNJ-".data ++ n ++ dseg ++ '-' :: c :: t) with
  | none => rw [hbm] at hsome; exact absurd hsome (by simp)
  | some bm =>
    rw [hbm] at he
    simp only [] at he
    split at he
    · injection he with he
      exact he.symm
    · exact absurd he (by simp)

/-- Witness for the amended C10 at proj/PRNJ-1-DEV-22-x followed by junk. -/
theorem claim_C10_witness :
    (("proj/".data : List Char) = [] ∨ ("proj/".data : List Char) = "hotfix-".data ∨
      ("proj/".data : List Char) = "hotfix/".data ∨
      ("proj/".data : List Char) = "proj/".data) ∧
    (("1".data : List Char) ≠ [] ∧ (∀ x ∈ ("1".data : List Char), isDigitC x = true) ∧
      isWordC 'x' = true) ∧
    ((branchMatch ("proj/".data ++ "PRNJ-".data ++ "1".data ++ ("-DEV-".data ++ "22".data) ++
        '-' :: 'x' :: "!!!".data)).isSome = true ∧
      (∀ e, getBranch ("proj/".data ++ "PRNJ-".data ++ "1".data ++
          ("-DEV-".data ++ "22".data) ++ '-' :: 'x' :: "!!!".data) = .error e →
        e = projectParentMsg)) :=
  ⟨by decide, ⟨by decide, by decide, by decide⟩,
    claim_C10_amended_prefix_match "proj/".data "1".data ("-DEV-".data ++ "22".data)
      "!!!".data 'x' (by decide) (by decide) (by decide)
      (Or.inr (Or.inr ⟨"22".data, by decide, by decide, rfl⟩)) (by decide)⟩
end PrnjHook
